import Mathlib

/-!
# Verification of the repo-digest fetch/aggregation pipeline

Shallow embedding of the pull-request fetch, classification, detail-fetch,
subdirectory-breakdown, sorting and monthly-counting logic of the
repo-digest program (`query.go`, `digest.go`), together with theorems
settling the specified claims.

Modelling conventions, stated once here:

* Go `time.Time` instants are modelled as `Int`.  The program only ever
  compares instants with `Time.Before` (strict `<`) and steps them backwards
  with `AddDate(0, -1, 0)`; RFC-3339 parsing is injective and monotone on
  valid timestamps, and a parse failure aborts the whole run (none of the
  claims concerns the parse-error path), so records carry pre-parsed `Int`
  timestamps.  `MergedAt` is kept as a `String` because the code only ever
  tests it for emptiness (`pr.MergedAt == ""`), never parses it.
* `AddDate(0, -1, 0)` (one calendar month backwards, with Go's day
  normalisation) is modelled as an abstract strictly-decreasing step
  function on instants (`MonthStep`): for every real date, subtracting one
  month with Go's normalisation yields a strictly earlier instant, and that
  strict decrease is the only property of month arithmetic the code relies
  on.
* Go `int` arithmetic is modelled with unbounded `Int`; the claims are
  sum/count equalities far below any 64-bit overflow.
* The `float64(count)/float64(total) > 0.80` threshold in
  `PullRequest.Subdirectories` is modelled as `5 * count > 4 * total`.
  For `total > 0` (within the float64-exact integer range) and for
  `total = 0` (where Go computes NaN or ±Inf and the comparison is `false`
  unless `count > 0`, in which case it is `+Inf > 0.80`, `true`) the two
  agree.
* `sort.Sort` from the Go standard library is not code of this repository;
  it is embedded by its documented contract (`GoSortOutput`): the output is
  a permutation of the input in which no later element is `Less` than an
  earlier one.  The documentation explicitly states the sort is **not**
  guaranteed to be stable.
* HTTP fetches are modelled as oracles: the listing phase consumes the
  pages the remote would serve (`List (List PullRequest)`), and the detail
  phase consumes a `Fetcher` of URL-keyed responses, each either a decoded
  value or an error, mirroring `fetchURL`.
-/

namespace RepoDigest

/-- `File` from `query.go`: the fields read by the modelled logic
(`Filename`, `Changes`).  The remaining Go fields (sha, status, additions,
deletions, URLs, patch) are never read by the pipeline being verified. -/
structure File where
  filename : String
  changes : Int
deriving DecidableEq

/-- `PullRequest` from `query.go`: the fields read or written by the
modelled logic.  The remaining Go fields (title, user, body, counters, …)
are payload that the fetch/aggregation pipeline never inspects. -/
structure PullRequest where
  number : Int
  url : String
  state : String
  createdAt : Int
  updatedAt : Int
  closedAt : Int
  /-- only compared against the empty string (`pr.MergedAt == ""`) -/
  mergedAt : String
  commitMessages : List String
  files : List File
deriving DecidableEq

/-- Substring containment on character lists (Go `strings`-style). -/
def startsWithChars : List Char → List Char → Bool
  | [], _ => true
  | _ :: _, [] => false
  | a :: as, b :: bs => a == b && startsWithChars as bs

/-- `needle` occurs somewhere inside `hay`. -/
def containsChars (needle : List Char) : List Char → Bool
  | [] => startsWithChars needle []
  | c :: rest => startsWithChars needle (c :: rest) || containsChars needle rest

/-- `skipFile` from `query.go`.  The two ignore patterns are the unanchored
regexps `.*\.pb\.(go|cc|h)` and `.*\.css`, tested with `MatchString`;
an unanchored match of those patterns holds exactly when the file name
contains `".pb.go"`, `".pb.cc"`, `".pb.h"` or `".css"` as a substring. -/
def skipFile (f : String) : Bool :=
  containsChars ".pb.go".data f.data || containsChars ".pb.cc".data f.data ||
    containsChars ".pb.h".data f.data || containsChars ".css".data f.data

/-- `PullRequest.TotalChanges` from `query.go`: sum of `Changes` over the
PR's (already filtered) files. -/
def prTotalChanges (pr : PullRequest) : Int :=
  (pr.files.map (fun f => f.changes)).sum

/-! ## Listing phase: `QueryPullRequests` -/

/-- The per-record loop body of `QueryPullRequests` (`query.go`), run over
the records of one fetched page.  Returns the open set, the closed set and
the `done` flag: a record whose `updated_at` is not strictly after
`FetchSince` sets `done` and stops the scan of the page immediately. -/
def processRecs (since : Int) : List PullRequest → List PullRequest × List PullRequest × Bool
  | [] => ([], [], false)
  | pr :: rest =>
    if pr.updatedAt ≤ since then ([], [], true)
    else
      let tail := processRecs since rest
      if pr.state = "open" then
        (if since < pr.createdAt then pr :: tail.1 else tail.1, tail.2.1, tail.2.2)
      else if pr.state = "closed" then
        if pr.mergedAt = "" then tail
        else (tail.1, (if since < pr.closedAt then pr :: tail.2.1 else tail.2.1), tail.2.2)
      else tail

/-- The page loop of `QueryPullRequests`: pages are fetched one at a time
while the next-page URL is nonempty and `done` is not set.  Returns the
open set, the closed set, and the number of pages actually fetched. -/
def queryPages (since : Int) : List (List PullRequest) → List PullRequest × List PullRequest × Nat
  | [] => ([], [], 0)
  | p :: ps =>
    let r := processRecs since p
    if r.2.2 then (r.1, r.2.1, 1)
    else
      let rest := queryPages since ps
      (r.1 ++ rest.1, r.2.1 ++ rest.2.1, rest.2.2 + 1)

/-- `QueryPullRequests` (`query.go`): open and closed sets listed for one
repository, given the pages the remote serves. -/
def queryPullRequests (since : Int) (pages : List (List PullRequest)) :
    List PullRequest × List PullRequest :=
  ((queryPages since pages).1, (queryPages since pages).2.1)

/-- A record is still inside the fetch window: `updated_at` strictly after
`since` (`c.FetchSince.Before(t)`). -/
def liveRec (since : Int) (pr : PullRequest) : Bool := since < pr.updatedAt

/-- Predicate for membership in the open result set
(state `"open"`, `created_at` after `since`). -/
def openPred (since : Int) (pr : PullRequest) : Bool :=
  pr.state = "open" && since < pr.createdAt

/-- Predicate for membership in the closed result set (state `"closed"`,
non-empty merge timestamp, `closed_at` after `since`). -/
def closedPred (since : Int) (pr : PullRequest) : Bool :=
  pr.state = "closed" && ¬ pr.mergedAt = "" && since < pr.closedAt

/-! ## Detail phase: `QueryDetailedPullRequests` and `Query` -/

/-- URL-keyed fetch oracle for the detail phase, one component per
`fetchURL` call shape in `QueryDetailedPullRequests`: the full record
re-fetch (decoded over the summary record), the commit-message list, and
the changed-file list.  An `Except.error` models a failed `fetchURL`. -/
structure Fetcher where
  full : String → Except String PullRequest
  commits : String → Except String (List String)
  files : String → Except String (List File)

/-- The loop body of `QueryDetailedPullRequests` for one PR: fetch the full
record (overwriting the summary record), fetch `URL+"/commits"`, fetch
`URL+"/files"`, then drop ignored files.  Any failing fetch aborts with
that error. -/
def detailOne (F : Fetcher) (pr : PullRequest) : Except String PullRequest :=
  match F.full pr.url with
  | .error e => .error e
  | .ok pr1 =>
    match F.commits (pr1.url ++ "/commits") with
    | .error e => .error e
    | .ok msgs =>
      match F.files (pr1.url ++ "/files") with
      | .error e => .error e
      | .ok fs =>
        .ok { pr1 with
              commitMessages := msgs
              files := fs.filter (fun f => ! skipFile f.filename) }

/-- `QueryDetailedPullRequests` (`query.go`): detail-fetch every PR in
order; the first failure aborts the whole pass with that error
(`if err != nil { return err }`). -/
def queryDetailedPullRequests (F : Fetcher) : List PullRequest → Except String (List PullRequest)
  | [] => .ok []
  | pr :: prs =>
    match detailOne F pr with
    | .error e => .error e
    | .ok pr' =>
      match queryDetailedPullRequests F prs with
      | .error e => .error e
      | .ok rest => .ok (pr' :: rest)

/-- `Query` (`query.go`): list every configured repository, concatenate the
open and the closed sets, then run the detail pass over the open set and
over the closed set.  A failing detail pass makes `Query` return
`(nil, nil, err)`, modelled as `([], [], some err)`. -/
def query (since : Int) (repoPages : List (List (List PullRequest))) (F : Fetcher) :
    List PullRequest × List PullRequest × Option String :=
  let op := (repoPages.map (fun pgs => (queryPullRequests since pgs).1)).flatten
  let cl := (repoPages.map (fun pgs => (queryPullRequests since pgs).2)).flatten
  match queryDetailedPullRequests F op with
  | .error e => ([], [], some e)
  | .ok op' =>
    match queryDetailedPullRequests F cl with
    | .error e => ([], [], some e)
    | .ok cl' => (op', cl', none)

/-- First error produced by the detail pass when scanning `prs` in order
(`none` when every PR's three fetches succeed). -/
def firstDetailErr (F : Fetcher) : List PullRequest → Option String
  | [] => none
  | pr :: prs =>
    match detailOne F pr with
    | .error e => some e
    | .ok _ => firstDetailErr F prs

/-! ## `path.Dir` / `path.Clean`

`PullRequest.Subdirectories` keys its groups on `path.Dir(f.Filename)`.
`path.Dir` is `Clean` applied to everything up to and including the last
slash; both are faithfully translated here from Go's `path` package
(lexical cleaning: collapse multiple slashes, drop `.` elements, resolve
`..` elements, empty result becomes `"."`). -/

/-- `out.w` backtracking used by `Clean` for a `..` element: starting from
`w`, decrease `w` while `w > dotdot` and the char at `w` is not `'/'`. -/
def cleanShrink (out : List Char) (dotdot : Nat) : Nat → Nat
  | 0 => 0
  | w + 1 =>
    if dotdot < w + 1 ∧ ¬ out.get? (w + 1) = some '/' then cleanShrink out dotdot w
    else w + 1

/-- Buffer truncation for a `..` element: `w--` then shrink. -/
def cleanBacktrack (dotdot : Nat) (out : List Char) : List Char :=
  out.take (cleanShrink out dotdot (out.length - 1))

/-- The main loop of Go `path.Clean`, over the unread input suffix.
State: `dotdot` (backtrack barrier) and `out` (written buffer).  The loop
is driven by structural fuel so that it computes by kernel reduction:
every iteration consumes at least one input character, so fuel equal to
the input length (what `goPathClean` supplies) never runs out. -/
def cleanLoop (rooted : Bool) : Nat → Nat → List Char → List Char → List Char
  | _, _, out, [] => out
  | 0, _, out, _ => out
  | fuel + 1, dotdot, out, c :: rest =>
    if c = '/' then
      -- empty path element
      cleanLoop rooted fuel dotdot out rest
    else if c = '.' ∧ (rest = [] ∨ rest.head? = some '/') then
      -- "." element
      cleanLoop rooted fuel dotdot out rest
    else if c = '.' ∧ rest.head? = some '.' ∧
        (rest.tail = [] ∨ rest.tail.head? = some '/') then
      -- ".." element
      if dotdot < out.length then
        cleanLoop rooted fuel dotdot (cleanBacktrack dotdot out) rest.tail
      else if ¬ rooted then
        let out' := (if 0 < out.length then out ++ ['/'] else out) ++ ['.', '.']
        cleanLoop rooted fuel out'.length out' rest.tail
      else
        cleanLoop rooted fuel dotdot out rest.tail
    else
      -- real path element: separator if needed, then copy up to the next '/'
      let out' := (if (rooted ∧ ¬ out.length = 1) ∨ (¬ rooted ∧ ¬ out.length = 0)
                   then out ++ ['/'] else out) ++ (c :: rest).takeWhile (fun a => ¬ a = '/')
      cleanLoop rooted fuel dotdot out' (rest.dropWhile (fun a => ¬ a = '/'))

/-- Go `path.Clean`. -/
def goPathClean (p : List Char) : List Char :=
  if p = [] then ['.']
  else
    let rooted := p.head? = some '/'
    let res :=
      if rooted then cleanLoop true p.length 1 ['/'] p.tail
      else cleanLoop false p.length 0 [] p
    if res = [] then ['.'] else res

/-- Everything up to and including the last `'/'` (Go `path.Split`'s first
component). -/
def dirPart (p : List Char) : List Char :=
  (p.reverse.dropWhile (fun c => ¬ c = '/')).reverse

/-- Go `path.Dir`. -/
def goPathDir (p : List Char) : List Char :=
  goPathClean (dirPart p)

/-! ## `PullRequest.Subdirectories` -/

/-- `Subdirectory` from `query.go`: a group name and the files grouped
under it. -/
structure Subdirectory where
  name : String
  files : List File
deriving DecidableEq

/-- `Subdirectory.TotalChanges`. -/
def sdTotalChanges (sd : Subdirectory) : Int :=
  (sd.files.map (fun f => f.changes)).sum

/-- The group key computed in `Subdirectories`:
`dir := path.Dir(f.Filename); if len(dir) == 0 { dir = "/" }`.
(`path.Dir` never returns an empty string, so the `"/"` branch is dead;
it is kept to mirror the source.) -/
def dirOf (f : File) : String :=
  let d := goPathDir f.filename.data
  if d.length = 0 then "/" else String.mk d

/-- Add one file to the group list: append to the existing group with this
name, or append a fresh group at the end (Go keeps `sds` in first-encounter
order and appends each file to `subdirs[dir].Files`). -/
def insertFile : List Subdirectory → String → File → List Subdirectory
  | [], dir, f => [⟨dir, [f]⟩]
  | sd :: sds, dir, f =>
    if sd.name = dir then ⟨sd.name, sd.files ++ [f]⟩ :: sds
    else sd :: insertFile sds dir f

/-- The grouping loop of `Subdirectories`: files in order, grouped by
`dirOf`. -/
def groupFiles (files : List File) : List Subdirectory :=
  files.foldl (fun sds f => insertFile sds (dirOf f) f) []

/-- `Subdirectories.Less` from `query.go`:
`slice[i].TotalChanges() > slice[j].TotalChanges()`. -/
def sdLess (a b : Subdirectory) : Prop := sdTotalChanges b < sdTotalChanges a

instance : DecidableRel sdLess := fun a b => by
  unfold sdLess; infer_instance

/-- Go `sort.Sort`'s documented contract, for an arbitrary `Less`: the
result is a permutation of the input in which no later element is `Less`
than an earlier one.  `sort.Sort` is explicitly **not** guaranteed to be
stable (`sort.Stable` exists for that), so every such permutation is a
permitted output. -/
def GoSortOutput (less : α → α → Prop) (input output : List α) : Prop :=
  output.Perm input ∧ output.Pairwise (fun a b => ¬ less b a)

/-- Index of the first group at which the running total strictly exceeds
80% of `total` (the loop `count += …; if float64(count)/float64(total) >
0.80 { … break }`), with the integer form of the threshold test. -/
def firstCross (total : Int) (count : Int) : List Subdirectory → Option Nat
  | [] => none
  | sd :: rest =>
    if 5 * (count + sdTotalChanges sd) > 4 * total then some 0
    else (firstCross total (count + sdTotalChanges sd) rest).map (fun n => n + 1)

/-- The truncation step of `Subdirectories`: cut the sorted list at the
first 80% crossing (`sds = sds[:i+1]`), or keep it whole if the threshold
is never exceeded. -/
def truncateSds (total : Int) (sds : List Subdirectory) : List Subdirectory :=
  match firstCross total 0 sds with
  | some i => sds.take (i + 1)
  | none => sds

/-- `PullRequest.Subdirectories` as a relation on outputs: group the files,
sort with `sort.Sort` (any contract-permitted permutation), truncate at the
80% crossing. -/
def SubdirsOutput (pr : PullRequest) (out : List Subdirectory) : Prop :=
  ∃ sorted, GoSortOutput sdLess (groupFiles pr.files) sorted ∧
    out = truncateSds (prTotalChanges pr) sorted

/-! ## `Digest` sorting (`digest.go`) -/

/-- `PullRequests.Less` from `digest.go`:
`slice[i].TotalChanges() > slice[j].TotalChanges()`. -/
def prLess (a b : PullRequest) : Prop := prTotalChanges b < prTotalChanges a

instance : DecidableRel prLess := fun a b => by
  unfold prLess; infer_instance

/-- The sorting step of `Digest` (`digest.go`): the open and the closed
sets are sorted independently with `sort.Sort` under `PullRequests.Less`. -/
def DigestOutput (opn cls sortedOpn sortedCls : List PullRequest) : Prop :=
  GoSortOutput prLess opn sortedOpn ∧ GoSortOutput prLess cls sortedCls

/-- A stable descending sort by an integer key (insertion sort), written
to the spec's words ("sort groups descending by that sum, stable tie-break:
original encounter order") for comparison against the `sort.Sort`
contract.  Elements with equal keys keep their input order. -/
def insertDescBy (key : α → Int) (a : α) : List α → List α
  | [] => [a]
  | b :: bs => if key b ≤ key a then a :: b :: bs else b :: insertDescBy key a bs

/-- Stable descending sort by key (spec-side definition). -/
def sortDescBy (key : α → Int) (l : List α) : List α :=
  l.foldr (insertDescBy key) []

/-- Modelled from the spec: `SubdirectoryBreakdown` as the spec words it —
stable descending sort of the groups (ties in original encounter order),
then the 80% truncation. -/
def specSubdirectoryBreakdown (pr : PullRequest) : List Subdirectory :=
  truncateSds (prTotalChanges pr) (sortDescBy sdTotalChanges (groupFiles pr.files))

/-! ## Monthly counting: `CountMonthly`, `CountMonthlyPullRequests` -/

/-- One backwards step of Go month arithmetic, `t.AddDate(0, -1, 0)`:
subtracting a calendar month (with Go's day-overflow normalisation) always
yields a strictly earlier instant, and that strict decrease is the only
property of `AddDate` the counting code relies on, so the step function is
kept abstract with that property. -/
structure MonthStep where
  step : Int → Int
  lt : ∀ t, step t < t

/-- The slot-allocation loop of `CountMonthly`, driven by structural fuel
so that it computes by kernel reduction.  The loop runs while
`since ≤ t`, and each iteration decreases `t` by at least one, so
`(t + 1 - since).toNat` iterations (what `monthSlots` supplies) always
suffice: the fuel bound never truncates the loop
(`monthSlotsAux_congr` below). -/
def monthSlotsAux (ms : MonthStep) (since : Int) : Nat → Int → List Int
  | 0, _ => []
  | fuel + 1, t => if since ≤ t then 0 :: monthSlotsAux ms since fuel (ms.step t) else []

/-- The slot-allocation loop of `CountMonthly`:
`for t := c.Now; !t.Before(c.FetchSince); { counts = append(counts, 0); t = t.AddDate(0,-1,0) }`. -/
def monthSlots (ms : MonthStep) (since t : Int) : List Int :=
  monthSlotsAux ms since (t + 1 - since).toNat t

/-- Bounds-checked `counts[idx] += v` (a Go out-of-range index panics,
modelled as `none`). -/
def writeAt (l : List Int) (i : Nat) (v : Int) : Option (List Int) :=
  if h : i < l.length then some (l.set i (l.get ⟨i, h⟩ + v)) else none

/-- The mutable locals of `CountMonthlyPullRequests`. -/
structure MCState where
  idx : Nat
  monthTotal : Int
  t : Int
  nextT : Int
  counts : List Int
deriving DecidableEq

/-- The `fillCounts` loop body, driven by structural fuel.  The loop runs
while `prT < s.nextT`, and each iteration decreases `nextT` by at least
one, so `(s.nextT - prT).toNat` iterations (what `fillCounts` supplies)
always suffice; in particular fuel `0` implies `s.nextT ≤ prT`, where the
Go loop would not run either (`fillCountsAux_congr` below). -/
def fillCountsAux (ms : MonthStep) (prT : Int) : Nat → MCState → Option MCState
  | 0, s => some s
  | fuel + 1, s =>
    if prT < s.nextT then
      match writeAt s.counts s.idx s.monthTotal with
      | none => none
      | some cs =>
        fillCountsAux ms prT fuel
          { idx := s.idx + 1, monthTotal := 0, t := s.nextT, nextT := ms.step s.nextT,
            counts := cs }
    else some s

/-- `fillCounts` from `CountMonthlyPullRequests`: while `prT.Before(nextT)`,
flush `monthTotal` into `counts[idx]` and walk one month back. -/
def fillCounts (ms : MonthStep) (prT : Int) (s : MCState) : Option MCState :=
  fillCountsAux ms prT (s.nextT - prT).toNat s

/-- The per-record loop of `CountMonthlyPullRequests`: a record whose
`created_at` is not strictly after `since` sets `done` and stops the scan;
otherwise `fillCounts(prT)` runs and `monthTotal++`. -/
def countRecs (ms : MonthStep) (since : Int) :
    List PullRequest → MCState → Option (MCState × Bool)
  | [], s => some (s, false)
  | pr :: rest, s =>
    if pr.createdAt ≤ since then some (s, true)
    else
      match fillCounts ms pr.createdAt s with
      | none => none
      | some s' => countRecs ms since rest { s' with monthTotal := s'.monthTotal + 1 }

/-- The page loop of `CountMonthlyPullRequests`. -/
def countPages (ms : MonthStep) (since : Int) :
    List (List PullRequest) → MCState → Option MCState
  | [], s => some s
  | p :: ps, s =>
    match countRecs ms since p s with
    | none => none
    | some (s', true) => some s'
    | some (s', false) => countPages ms since ps s'

/-- `CountMonthlyPullRequests` (`query.go`): scan the pages, then
`fillCounts(c.FetchSince)` and the final `counts[idx] += monthTotal`. -/
def countMonthlyPullRequests (ms : MonthStep) (since now : Int)
    (pages : List (List PullRequest)) (counts : List Int) : Option (List Int) :=
  match countPages ms since pages ⟨0, 0, now, ms.step now, counts⟩ with
  | none => none
  | some s1 =>
    match fillCounts ms since s1 with
    | none => none
    | some s2 => writeAt s2.counts s2.idx s2.monthTotal

/-- `CountMonthly` (`query.go`): allocate one zero slot per month from
`Now` back to `FetchSince`, then run `CountMonthlyPullRequests` for each
repository over the shared counts slice. -/
def countMonthly (ms : MonthStep) (since now : Int)
    (repoPages : List (List (List PullRequest))) : Option (List Int) :=
  repoPages.foldl
    (fun acc pgs =>
      match acc with
      | none => none
      | some cs => countMonthlyPullRequests ms since now pgs cs)
    (some (monthSlots ms since now))

/-- `k`-fold application of the month step (the value of `t` after `k`
iterations of `t = t.AddDate(0, -1, 0)` starting from `t₀`). -/
def iterStep (ms : MonthStep) : Nat → Int → Int
  | 0, t => t
  | k + 1, t => iterStep ms k (ms.step t)

/-- Sum of `TotalChanges` over a group list. -/
def sumSds (l : List Subdirectory) : Int :=
  (l.map sdTotalChanges).sum

/-- The loop invariant tying the mutable locals of
`CountMonthlyPullRequests` to the slots allocated by `CountMonthly`:
`t` is `Now` walked back `idx` months, `nextT` is one more step back,
`t` has not passed `FetchSince`, and the counts slice still has one slot
per allocated month. -/
def MCInv (ms : MonthStep) (since now : Int) (s : MCState) : Prop :=
  s.t = iterStep ms s.idx now ∧ s.nextT = ms.step s.t ∧ since ≤ s.t ∧
    s.counts.length = (monthSlots ms since now).length

/-! ## Concrete data for witnesses and counterexamples -/

/-- A concrete month step for concrete runs (one "month" = one unit). -/
def msUnit : MonthStep :=
  ⟨fun t => t - 1, by intro t; show t - 1 < t; omega⟩

/-- Shorthand for a concrete pull-request record. -/
def mkPR (num : Int) (st : String) (cr up cl : Int) (mg : String) (fs : List File) :
    PullRequest :=
  { number := num, url := "", state := st, createdAt := cr, updatedAt := up,
    closedAt := cl, mergedAt := mg, commitMessages := [], files := fs }

/-- A fetcher whose every request succeeds with fixed payloads. -/
def okFetcher (pr1 : PullRequest) (msgs : List String) (fs : List File) : Fetcher :=
  ⟨fun _ => .ok pr1, fun _ => .ok msgs, fun _ => .ok fs⟩

/-- A fetcher whose full-record request fails with `"boom"`. -/
def downFetcher : Fetcher :=
  ⟨fun _ => .error "boom", fun _ => .error "boom", fun _ => .error "boom"⟩

/-! # Theorems -/

/-! ## Listing phase lemmas -/

theorem processRecs_eq (since : Int) (l : List PullRequest) :
    processRecs since l =
      ((l.takeWhile (liveRec since)).filter (openPred since),
       (l.takeWhile (liveRec since)).filter (closedPred since),
       l.any (fun r => ! liveRec since r)) := by
  induction l with
  | nil => simp [processRecs]
  | cons pr rest ih =>
    by_cases h : pr.updatedAt ≤ since
    · have hl : liveRec since pr = false := by
        simp [liveRec]; omega
      simp [processRecs, h, hl]
    · have hl : liveRec since pr = true := by
        simp [liveRec]; omega
      have hstep : processRecs since (pr :: rest) =
          (let tail := processRecs since rest
           if pr.state = "open" then
             (if since < pr.createdAt then pr :: tail.1 else tail.1, tail.2.1, tail.2.2)
           else if pr.state = "closed" then
             if pr.mergedAt = "" then tail
             else (tail.1, (if since < pr.closedAt then pr :: tail.2.1 else tail.2.1), tail.2.2)
           else tail) := by
        simp [processRecs, h]
      rw [hstep, ih]
      by_cases ho : pr.state = "open"
      · have hc : (pr.state = "closed") = False := by simp [ho]
        by_cases hcr : since < pr.createdAt
        · simp [ho, hc, hcr, hl, openPred, closedPred, List.filter]
        · simp [ho, hc, hcr, hl, openPred, closedPred, List.filter]
      · by_cases hc : pr.state = "closed"
        · by_cases hm : pr.mergedAt = ""
          · simp [ho, hc, hm, hl, openPred, closedPred, List.filter]
          · by_cases hcl : since < pr.closedAt
            · simp [ho, hc, hm, hcl, hl, openPred, closedPred, List.filter]
            · simp [ho, hc, hm, hcl, hl, openPred, closedPred, List.filter]
        · simp [ho, hc, hl, openPred, closedPred, List.filter]

theorem takeWhile_append_of_all {α} (p : α → Bool) (l₁ l₂ : List α)
    (h : ∀ x ∈ l₁, p x = true) : (l₁ ++ l₂).takeWhile p = l₁ ++ l₂.takeWhile p := by
  induction l₁ with
  | nil => simp
  | cons a as ih =>
    have ha : p a = true := h a (by simp)
    simp [List.takeWhile, ha]
    exact ih (fun x hx => h x (by simp [hx]))

theorem takeWhile_append_of_any {α} (p : α → Bool) (l₁ l₂ : List α)
    (h : l₁.any (fun x => ! p x) = true) : (l₁ ++ l₂).takeWhile p = l₁.takeWhile p := by
  induction l₁ with
  | nil => simp at h
  | cons a as ih =>
    by_cases ha : p a = true
    · simp [List.takeWhile, ha]
      apply ih
      simp [List.any] at h ⊢
      rcases h with h | h
      · rw [ha] at h; simp at h
      · exact h
    · have : p a = false := by simpa using ha
      simp [List.takeWhile, this]

theorem queryPages_eq (since : Int) (pages : List (List PullRequest)) :
    (queryPages since pages).1 =
      (pages.flatten.takeWhile (liveRec since)).filter (openPred since) ∧
    (queryPages since pages).2.1 =
      (pages.flatten.takeWhile (liveRec since)).filter (closedPred since) := by
  induction pages with
  | nil => simp [queryPages]
  | cons p ps ih =>
    by_cases hs : p.any (fun r => ! liveRec since r) = true
    · have h1 := takeWhile_append_of_any (liveRec since) p ps.flatten hs
      simp [queryPages, processRecs_eq, hs, h1]
    · have hall : ∀ x ∈ p, liveRec since x = true := by
        intro x hx
        by_contra hx2
        exact hs (by simp [List.any_eq_true]; exact ⟨x, hx, by simpa using hx2⟩)
      have h1 := takeWhile_append_of_all (liveRec since) p ps.flatten hall
      have htw : p.takeWhile (liveRec since) = p := List.takeWhile_eq_self_iff.mpr hall
      simp [queryPages, processRecs_eq, hs, h1, htw, List.filter_append, ih.1, ih.2]

theorem takeWhile_eq_filter_of_sorted (since : Int) (l : List PullRequest)
    (h : l.Pairwise (fun a b => b.updatedAt ≤ a.updatedAt)) :
    l.takeWhile (liveRec since) = l.filter (liveRec since) := by
  induction l with
  | nil => simp
  | cons a as ih =>
    rcases List.pairwise_cons.mp h with ⟨ha, ht⟩
    by_cases hl : liveRec since a = true
    · simp [List.takeWhile, List.filter, hl, ih ht]
    · have hl' : liveRec since a = false := by simpa using hl
      have hnil : as.filter (liveRec since) = [] := by
        rw [List.filter_eq_nil_iff]
        intro b hb
        have hb2 := ha b hb
        simp [liveRec] at hl' ⊢
        omega
      simp [List.takeWhile, List.filter, hl', hnil]

/-- C1: for every fetched record within the since window (given the
remote's descending-`updated_at` order, which `QueryPullRequests` requests
and relies on for its early exit), the record is in the open result set iff
its state is `"open"` and its `created_at` is after `since`, and in the
closed result set iff its state is `"closed"`, its merge timestamp is
non-empty and its `closed_at` is after `since`; records with any other
state, and unmerged closed records, are in neither set (the membership
equivalences below make those records satisfy neither right-hand side). -/
theorem claim1_listing_classification (since : Int) (pages : List (List PullRequest))
    (hsort : pages.flatten.Pairwise (fun a b => b.updatedAt ≤ a.updatedAt))
    (r : PullRequest) :
    (r ∈ (queryPullRequests since pages).1 ↔
      r ∈ pages.flatten ∧ since < r.updatedAt ∧ r.state = "open" ∧ since < r.createdAt) ∧
    (r ∈ (queryPullRequests since pages).2 ↔
      r ∈ pages.flatten ∧ since < r.updatedAt ∧ r.state = "closed" ∧
        ¬ r.mergedAt = "" ∧ since < r.closedAt) := by
  have h1 := (queryPages_eq since pages).1
  have h2 := (queryPages_eq since pages).2
  rw [takeWhile_eq_filter_of_sorted since _ hsort] at h1 h2
  rw [queryPullRequests, h1, h2]
  constructor
  · simp [List.mem_filter, liveRec, openPred]
    tauto
  · simp [List.mem_filter, liveRec, closedPred]
    tauto

/-- Witness for C1 on a concrete two-page fetch: the in-window open record
lands in the open set and the in-window merged-closed record lands in the
closed set. -/
theorem claim1_listing_classification_witness :
    mkPR 1 "open" 5 10 0 "" [] ∈
      (queryPullRequests 0 [[mkPR 1 "open" 5 10 0 "" [], mkPR 2 "closed" 3 9 4 "m" []],
        [mkPR 3 "open" 1 0 0 "" []]]).1 ∧
    mkPR 2 "closed" 3 9 4 "m" [] ∈
      (queryPullRequests 0 [[mkPR 1 "open" 5 10 0 "" [], mkPR 2 "closed" 3 9 4 "m" []],
        [mkPR 3 "open" 1 0 0 "" []]]).2 := by
  have h := claim1_listing_classification 0
    [[mkPR 1 "open" 5 10 0 "" [], mkPR 2 "closed" 3 9 4 "m" []],
     [mkPR 3 "open" 1 0 0 "" []]] (by decide)
  exact ⟨(h (mkPR 1 "open" 5 10 0 "" [])).1.mpr (by decide),
         (h (mkPR 2 "closed" 3 9 4 "m" [])).2.mpr (by decide)⟩

theorem processRecs_append_stale (since : Int) (r : PullRequest) (p₂ : List PullRequest) :
    ∀ p₁, (∀ x ∈ p₁, liveRec since x = true) → r.updatedAt ≤ since →
    processRecs since (p₁ ++ r :: p₂) = processRecs since (p₁ ++ [r])
  | [], _, hr => by simp [processRecs, hr]
  | a :: as, hlive, hr => by
    have ha : ¬ a.updatedAt ≤ since := by
      have := hlive a (by simp)
      simp [liveRec] at this
      omega
    have ih := processRecs_append_stale since r p₂ as
      (fun x hx => hlive x (by simp [hx])) hr
    simp only [List.cons_append, processRecs, ha, if_false, List.append_eq, ih]

/-- C4: as soon as a fetched record's `updated_at` is not strictly after
`since`, pagination stops: the whole listing result equals that of a fetch
stream truncated right after this record (records later in the page and all
later pages are irrelevant), and the number of pages fetched is exactly the
number of earlier all-live pages plus the current one. -/
theorem claim4_pagination_early_exit (since : Int) (p₁ p₂ : List PullRequest)
    (r : PullRequest) (ps₂ : List (List PullRequest)) :
    ∀ ps₁ : List (List PullRequest),
    (∀ x ∈ ps₁.flatten ++ p₁, liveRec since x = true) → r.updatedAt ≤ since →
    queryPages since (ps₁ ++ (p₁ ++ r :: p₂) :: ps₂) =
      queryPages since (ps₁ ++ [p₁ ++ [r]]) ∧
    (queryPages since (ps₁ ++ (p₁ ++ r :: p₂) :: ps₂)).2.2 = ps₁.length + 1
  | [], hlive, hr => by
    have hlive1 : ∀ x ∈ p₁, liveRec since x = true := by
      intro x hx; exact hlive x (by simp [hx])
    have heq := processRecs_append_stale since r p₂ p₁ hlive1 hr
    have hflag : (processRecs since (p₁ ++ [r])).2.2 = true := by
      rw [processRecs_eq]
      simp [List.any_eq_true]
      refine Or.inr ?_
      simp [liveRec]
      omega
    simp [queryPages, heq, hflag]
  | q :: qs, hlive, hr => by
    have hq : ∀ x ∈ q, liveRec since x = true := by
      intro x hx; exact hlive x (by simp [hx])
    have hflag : (processRecs since q).2.2 = false := by
      rw [processRecs_eq]
      simp [List.any_eq_false]
      intro x hx
      simpa using hq x hx
    have ih := claim4_pagination_early_exit since p₁ p₂ r ps₂ qs
      (fun x hx => hlive x (by
        simp only [List.flatten_cons, List.mem_append] at hx ⊢
        tauto)) hr
    constructor
    · show queryPages since (q :: (qs ++ (p₁ ++ r :: p₂) :: ps₂)) =
        queryPages since (q :: (qs ++ [p₁ ++ [r]]))
      simp only [queryPages, hflag, Bool.false_eq_true, if_false, ih.1]
    · show (queryPages since (q :: (qs ++ (p₁ ++ r :: p₂) :: ps₂))).2.2 = (q :: qs).length + 1
      simp only [queryPages, hflag, Bool.false_eq_true, if_false]
      simp [ih.2]

/-- Witness for C4 on a concrete run: one all-live page, then a page whose
second record is stale — fetching stops after page two and the trailing
record and page are never looked at. -/
theorem claim4_pagination_early_exit_witness :
    queryPages 0 ([[mkPR 1 "open" 5 10 0 "" []]] ++
        ([mkPR 2 "open" 4 9 0 "" []] ++ mkPR 3 "open" 3 0 0 "" [] ::
          [mkPR 4 "open" 8 8 0 "" []]) :: [[mkPR 5 "open" 7 7 0 "" []]]) =
      queryPages 0 ([[mkPR 1 "open" 5 10 0 "" []]] ++
        [[mkPR 2 "open" 4 9 0 "" []] ++ [mkPR 3 "open" 3 0 0 "" []]]) ∧
    (queryPages 0 ([[mkPR 1 "open" 5 10 0 "" []]] ++
        ([mkPR 2 "open" 4 9 0 "" []] ++ mkPR 3 "open" 3 0 0 "" [] ::
          [mkPR 4 "open" 8 8 0 "" []]) :: [[mkPR 5 "open" 7 7 0 "" []]])).2.2 =
      [[mkPR 1 "open" 5 10 0 "" []]].length + 1 :=
  claim4_pagination_early_exit 0 [mkPR 2 "open" 4 9 0 "" []]
    [mkPR 4 "open" 8 8 0 "" []] (mkPR 3 "open" 3 0 0 "" [])
    [[mkPR 5 "open" 7 7 0 "" []]] [[mkPR 1 "open" 5 10 0 "" []]]
    (by decide) (by decide)

/-! ## Detail phase theorems -/

theorem filterSum_eq_ifSum (fs : List File) :
    ((fs.filter (fun f => ! skipFile f.filename)).map (fun f => f.changes)).sum =
      (fs.map (fun f => if skipFile f.filename then 0 else f.changes)).sum := by
  induction fs with
  | nil => simp
  | cons f rest ih =>
    by_cases h : skipFile f.filename
    · simp [List.filter_cons, h, ih]
    · simp [List.filter_cons, h, ih]

/-- C2: after a successful detail fetch for a PR, `TotalChanges` is the sum
of `changes` over exactly the fetched files whose names do not match an
ignore pattern; matching files contribute zero, and the total is zero when
no files were fetched. -/
theorem claim2_total_changes (F : Fetcher) (pr pr1 : PullRequest)
    (msgs : List String) (fs : List File)
    (h1 : F.full pr.url = .ok pr1)
    (h2 : F.commits (pr1.url ++ "/commits") = .ok msgs)
    (h3 : F.files (pr1.url ++ "/files") = .ok fs) :
    ∃ pr', detailOne F pr = .ok pr' ∧
      pr'.files = fs.filter (fun f => ! skipFile f.filename) ∧
      prTotalChanges pr' =
        ((fs.filter (fun f => ! skipFile f.filename)).map (fun f => f.changes)).sum ∧
      prTotalChanges pr' =
        (fs.map (fun f => if skipFile f.filename then 0 else f.changes)).sum ∧
      (fs = [] → prTotalChanges pr' = 0) := by
  have hD : detailOne F pr = .ok
      { pr1 with
        commitMessages := msgs
        files := fs.filter (fun f => ! skipFile f.filename) } := by
    simp [detailOne, h1, h2, h3]
  refine ⟨_, hD, rfl, ?_, ?_, ?_⟩
  · simp [prTotalChanges]
  · simp [prTotalChanges, filterSum_eq_ifSum]
  · intro hnil
    simp [prTotalChanges, hnil]

/-- Witness for C2: a concrete detail fetch returning a kept file, an
ignored generated file and an ignored stylesheet. -/
theorem claim2_total_changes_witness :
    ∃ pr', detailOne
        (okFetcher (mkPR 1 "open" 5 10 0 "" []) ["msg"]
          [⟨"pkg/a.go", 7⟩, ⟨"pkg/a.pb.go", 100⟩, ⟨"ui/s.css", 30⟩])
        (mkPR 1 "open" 5 10 0 "" []) = .ok pr' ∧
      pr'.files = ([⟨"pkg/a.go", 7⟩, ⟨"pkg/a.pb.go", 100⟩, ⟨"ui/s.css", 30⟩] :
          List File).filter (fun f => ! skipFile f.filename) ∧
      prTotalChanges pr' =
        ((([⟨"pkg/a.go", 7⟩, ⟨"pkg/a.pb.go", 100⟩, ⟨"ui/s.css", 30⟩] :
          List File).filter (fun f => ! skipFile f.filename)).map
            (fun f => f.changes)).sum ∧
      prTotalChanges pr' =
        (([⟨"pkg/a.go", 7⟩, ⟨"pkg/a.pb.go", 100⟩, ⟨"ui/s.css", 30⟩] :
          List File).map (fun f => if skipFile f.filename then 0 else f.changes)).sum ∧
      (([⟨"pkg/a.go", 7⟩, ⟨"pkg/a.pb.go", 100⟩, ⟨"ui/s.css", 30⟩] : List File) = [] →
        prTotalChanges pr' = 0) :=
  claim2_total_changes _ _ _ _ _ rfl rfl rfl

theorem firstDetailErr_error (F : Fetcher) :
    ∀ l e, firstDetailErr F l = some e →
      queryDetailedPullRequests F l = .error e
  | [], e, h => by simp [firstDetailErr] at h
  | pr :: prs, e, h => by
    cases hd : detailOne F pr with
    | error e' =>
      simp only [firstDetailErr, hd] at h
      cases h
      simp [queryDetailedPullRequests, hd]
    | ok v =>
      simp only [firstDetailErr, hd] at h
      have ih := firstDetailErr_error F prs e h
      simp [queryDetailedPullRequests, hd, ih]

theorem firstDetailErr_none (F : Fetcher) :
    ∀ l, firstDetailErr F l = none →
      ∃ l', queryDetailedPullRequests F l = .ok l'
  | [], _ => ⟨[], rfl⟩
  | pr :: prs, h => by
    cases hd : detailOne F pr with
    | error e' =>
      simp only [firstDetailErr, hd] at h
      exact absurd h (by simp)
    | ok v =>
      simp only [firstDetailErr, hd] at h
      obtain ⟨l', hl'⟩ := firstDetailErr_none F prs h
      exact ⟨v :: l', by simp [queryDetailedPullRequests, hd, hl']⟩

theorem firstDetailErr_append (F : Fetcher) :
    ∀ l₁ l₂, firstDetailErr F (l₁ ++ l₂) =
      (match firstDetailErr F l₁ with
       | some e => some e
       | none => firstDetailErr F l₂)
  | [], l₂ => by simp [firstDetailErr]
  | pr :: prs, l₂ => by
    cases hd : detailOne F pr with
    | error e' => simp [firstDetailErr, hd]
    | ok v => simp [firstDetailErr, hd, firstDetailErr_append F prs l₂]

/-- C9: (a) if every detail fetch before `bad` succeeds and a fetch for
`bad` fails, the detail pass returns that error no matter what follows
`bad` (no skip-and-continue); (b) whenever the first detail-fetch error
over the listed open-then-closed sets is `e`, `Query` returns
`(nil, nil, e)` — no partial result sets. -/
theorem claim9_detail_failure_aborts :
    (∀ (F : Fetcher) (xs ys : List PullRequest) (bad : PullRequest) (e : String),
      (∀ x ∈ xs, (detailOne F x).isOk = true) → detailOne F bad = .error e →
      queryDetailedPullRequests F (xs ++ bad :: ys) = .error e) ∧
    (∀ (since : Int) (repoPages : List (List (List PullRequest))) (F : Fetcher)
        (e : String),
      firstDetailErr F
        ((repoPages.map (fun pgs => (queryPullRequests since pgs).1)).flatten ++
         (repoPages.map (fun pgs => (queryPullRequests since pgs).2)).flatten) = some e →
      query since repoPages F = ([], [], some e)) := by
  constructor
  · intro F xs ys bad e hok hbad
    induction xs with
    | nil => simp [queryDetailedPullRequests, hbad]
    | cons x xs ih =>
      have hx := hok x (by simp)
      cases hd : detailOne F x with
      | error e' => rw [hd] at hx; simp [Except.isOk, Except.toBool] at hx
      | ok v =>
        have ih2 := ih (fun y hy => hok y (by simp [hy]))
        simp [queryDetailedPullRequests, hd, ih2]
  · intro since repoPages F e h
    rw [firstDetailErr_append] at h
    rw [query]
    cases ho : firstDetailErr F
        ((repoPages.map (fun pgs => (queryPullRequests since pgs).1)).flatten) with
    | some e1 =>
      rw [ho] at h
      simp at h
      subst h
      rw [firstDetailErr_error F _ e1 ho]
    | none =>
      rw [ho] at h
      simp at h
      obtain ⟨l', hl'⟩ := firstDetailErr_none F _ ho
      rw [hl', firstDetailErr_error F _ e h]

/-- Witness for C9: a concrete failing fetcher aborts a one-PR detail pass
and makes `Query` return empty sets with the error. -/
theorem claim9_detail_failure_aborts_witness :
    queryDetailedPullRequests downFetcher ([] ++ mkPR 1 "open" 5 10 0 "" [] :: []) =
      .error "boom" ∧
    query 0 [[[mkPR 1 "open" 5 10 0 "" []]]] downFetcher = ([], [], some "boom") :=
  ⟨claim9_detail_failure_aborts.1 downFetcher [] [] (mkPR 1 "open" 5 10 0 "" [])
      "boom" (by intro x hx; cases hx) rfl,
   claim9_detail_failure_aborts.2 0 [[[mkPR 1 "open" 5 10 0 "" []]]] downFetcher
      "boom" (by decide)⟩


/-! ## Digest sorting theorems -/

theorem perm_insertDescBy (key : α → Int) (a : α) :
    ∀ l : List α, (insertDescBy key a l).Perm (a :: l)
  | [] => List.Perm.refl _
  | b :: bs => by
    by_cases hle : key b ≤ key a
    · simp [insertDescBy, hle]
    · simp only [insertDescBy, hle, if_false]
      exact ((perm_insertDescBy key a bs).cons b).trans (List.Perm.swap a b bs)

theorem perm_sortDescBy (key : α → Int) :
    ∀ l : List α, (sortDescBy key l).Perm l
  | [] => List.Perm.refl _
  | x :: l => by
    have h1 := perm_insertDescBy key x (sortDescBy key l)
    have h2 := (perm_sortDescBy key l).cons x
    exact ((by rfl : sortDescBy key (x :: l) = insertDescBy key x (sortDescBy key l)) ▸
      h1.trans h2)

theorem pairwise_insertDescBy (key : α → Int) (a : α) (l : List α)
    (h : l.Pairwise (fun x y => key y ≤ key x)) :
    (insertDescBy key a l).Pairwise (fun x y => key y ≤ key x) := by
  induction l with
  | nil => simp [insertDescBy]
  | cons b bs ih =>
    rcases List.pairwise_cons.mp h with ⟨hb, ht⟩
    by_cases hle : key b ≤ key a
    · simp only [insertDescBy, hle, if_true]
      refine List.pairwise_cons.mpr ⟨?_, h⟩
      intro y hy
      rcases List.mem_cons.mp hy with rfl | hy2
      · exact hle
      · exact le_trans (hb y hy2) hle
    · simp only [insertDescBy, hle, if_false]
      refine List.pairwise_cons.mpr ⟨?_, ih ht⟩
      intro y hy
      have hmem : y ∈ a :: bs := (perm_insertDescBy key a bs).mem_iff.mp hy
      rcases List.mem_cons.mp hmem with rfl | hy2
      · omega
      · exact hb y hy2

theorem pairwise_sortDescBy (key : α → Int) :
    ∀ l : List α, (sortDescBy key l).Pairwise (fun x y => key y ≤ key x)
  | [] => List.Pairwise.nil
  | x :: l => pairwise_insertDescBy key x _ (pairwise_sortDescBy key l)

theorem goSortOutput_sortDescBy (key : α → Int) (l : List α) :
    GoSortOutput (fun a b => key b < key a) l (sortDescBy key l) := by
  constructor
  · exact perm_sortDescBy key l
  · have h := pairwise_sortDescBy key l
    exact h.imp (fun hxy => by omega)

/-- C5, counterexample to stability: for two distinct PRs with equal
`TotalChanges`, `sort.Sort`'s contract permits the reversed output, which
differs from the stable (tie-order-preserving) descending sort — the code
uses `sort.Sort`, which does not guarantee stability, so Digest is not
guaranteed to keep equal-total PRs in their pre-sort order. -/
theorem claim5_counterexample :
    DigestOutput
      [mkPR 1 "open" 0 0 0 "" [⟨"a/x", 10⟩], mkPR 2 "open" 0 0 0 "" [⟨"b/y", 10⟩]] []
      [mkPR 2 "open" 0 0 0 "" [⟨"b/y", 10⟩], mkPR 1 "open" 0 0 0 "" [⟨"a/x", 10⟩]] [] ∧
    prTotalChanges (mkPR 1 "open" 0 0 0 "" [⟨"a/x", 10⟩]) =
      prTotalChanges (mkPR 2 "open" 0 0 0 "" [⟨"b/y", 10⟩]) ∧
    ¬ mkPR 1 "open" 0 0 0 "" [⟨"a/x", 10⟩] = mkPR 2 "open" 0 0 0 "" [⟨"b/y", 10⟩] ∧
    ¬ [mkPR 2 "open" 0 0 0 "" [⟨"b/y", 10⟩], mkPR 1 "open" 0 0 0 "" [⟨"a/x", 10⟩]] =
      sortDescBy prTotalChanges
        [mkPR 1 "open" 0 0 0 "" [⟨"a/x", 10⟩], mkPR 2 "open" 0 0 0 "" [⟨"b/y", 10⟩]] := by
  refine ⟨⟨⟨?_, ?_⟩, ?_, ?_⟩, ?_, ?_, ?_⟩ <;> decide

/-- C5 amended: `Digest` sorts the open and the closed sets independently
into descending order of `TotalChanges` (each output is a permutation of
its input, pairwise nonincreasing in `TotalChanges`, and such an output
always exists); tie order is *not* guaranteed because `sort.Sort` is not a
stable sort. -/
theorem claim5_digest_sort_descending (opn cls : List PullRequest) :
    (∃ so sc, DigestOutput opn cls so sc) ∧
    (∀ so sc, DigestOutput opn cls so sc →
      so.Perm opn ∧ so.Pairwise (fun a b => prTotalChanges b ≤ prTotalChanges a) ∧
      sc.Perm cls ∧ sc.Pairwise (fun a b => prTotalChanges b ≤ prTotalChanges a)) := by
  constructor
  · exact ⟨sortDescBy prTotalChanges opn, sortDescBy prTotalChanges cls,
      goSortOutput_sortDescBy prTotalChanges opn,
      goSortOutput_sortDescBy prTotalChanges cls⟩
  · rintro so sc ⟨⟨hp1, hs1⟩, hp2, hs2⟩
    refine ⟨hp1, ?_, hp2, ?_⟩
    · exact hs1.imp (fun hxy => by simpa [prLess] using hxy)
    · exact hs2.imp (fun hxy => by simpa [prLess] using hxy)

/-- Witness for C5 (amended) at a concrete pair of sets: the reversed
equal-total output is permitted and satisfies the descending-order
conclusion. -/
theorem claim5_digest_sort_descending_witness :
    ([mkPR 2 "open" 0 0 0 "" [⟨"b/y", 10⟩], mkPR 1 "open" 0 0 0 "" [⟨"a/x", 10⟩]] :
        List PullRequest).Perm
      [mkPR 1 "open" 0 0 0 "" [⟨"a/x", 10⟩], mkPR 2 "open" 0 0 0 "" [⟨"b/y", 10⟩]] ∧
    ([mkPR 2 "open" 0 0 0 "" [⟨"b/y", 10⟩], mkPR 1 "open" 0 0 0 "" [⟨"a/x", 10⟩]] :
        List PullRequest).Pairwise
      (fun a b => prTotalChanges b ≤ prTotalChanges a) ∧
    ([] : List PullRequest).Perm [] ∧
    ([] : List PullRequest).Pairwise (fun a b => prTotalChanges b ≤ prTotalChanges a) :=
  (claim5_digest_sort_descending
      [mkPR 1 "open" 0 0 0 "" [⟨"a/x", 10⟩], mkPR 2 "open" 0 0 0 "" [⟨"b/y", 10⟩]] []).2
    [mkPR 2 "open" 0 0 0 "" [⟨"b/y", 10⟩], mkPR 1 "open" 0 0 0 "" [⟨"a/x", 10⟩]] []
    ⟨⟨by decide, by decide⟩, by decide, by decide⟩


/-! ## Subdirectory breakdown theorems -/

theorem sumSds_insertFile (f : File) (d : String) :
    ∀ sds, sumSds (insertFile sds d f) = sumSds sds + f.changes
  | [] => by simp [insertFile, sumSds, sdTotalChanges]
  | sd :: sds => by
    have ih := sumSds_insertFile f d sds
    by_cases h : sd.name = d
    · simp [insertFile, h, sumSds, sdTotalChanges] at ih ⊢
      ring
    · simp [insertFile, h, sumSds, sdTotalChanges] at ih ⊢
      omega

theorem sumSds_foldl (fs : List File) :
    ∀ acc, sumSds (fs.foldl (fun sds f => insertFile sds (dirOf f) f) acc) =
      sumSds acc + (fs.map (fun f => f.changes)).sum := by
  induction fs with
  | nil => intro acc; simp
  | cons f rest ih =>
    intro acc
    simp only [List.foldl_cons, List.map_cons, List.sum_cons]
    rw [ih, sumSds_insertFile]
    ring

theorem sumSds_groupFiles (pr : PullRequest) :
    sumSds (groupFiles pr.files) = prTotalChanges pr := by
  rw [groupFiles, sumSds_foldl, prTotalChanges]
  simp [sumSds]

theorem sumSds_perm {l₁ l₂ : List Subdirectory} (h : l₁.Perm l₂) :
    sumSds l₁ = sumSds l₂ :=
  List.Perm.sum_eq (h.map sdTotalChanges)

theorem firstCross_cons (total c : Int) (sd : Subdirectory) (rest : List Subdirectory) :
    firstCross total c (sd :: rest) =
      if 5 * (c + sdTotalChanges sd) > 4 * total then some 0
      else (firstCross total (c + sdTotalChanges sd) rest).map (fun n => n + 1) := rfl

theorem firstCross_spec (total : Int) :
    ∀ (l : List Subdirectory) (c : Int) (i : Nat), firstCross total c l = some i →
      i < l.length ∧ 5 * (c + sumSds (l.take (i + 1))) > 4 * total ∧
      ∀ j, 1 ≤ j → j ≤ i → ¬ 5 * (c + sumSds (l.take j)) > 4 * total
  | [], c, i, h => by simp [firstCross] at h
  | sd :: rest, c, i, h => by
    rw [firstCross_cons] at h
    by_cases hc : 5 * (c + sdTotalChanges sd) > 4 * total
    · rw [if_pos hc] at h
      cases h
      refine ⟨by simp, ?_, ?_⟩
      · simpa [sumSds] using hc
      · intro j h1 h2
        omega
    · rw [if_neg hc, Option.map_eq_some'] at h
      obtain ⟨i', hi', rfl⟩ := h
      obtain ⟨hlen, hcross, hmin⟩ := firstCross_spec total rest (c + sdTotalChanges sd) i' hi'
      have htake : ∀ n : Nat, (sd :: rest).take (n + 1) = sd :: rest.take n := by
        intro n; simp
      refine ⟨by simp; omega, ?_, ?_⟩
      · rw [htake]
        have hs : sumSds (sd :: rest.take (i' + 1)) =
            sdTotalChanges sd + sumSds (rest.take (i' + 1)) := by
          simp [sumSds]
        rw [hs]
        omega
      · intro j h1 h2
        obtain ⟨j', rfl⟩ : ∃ j', j = j' + 1 := ⟨j - 1, by omega⟩
        rw [htake]
        have hs : sumSds (sd :: rest.take j') =
            sdTotalChanges sd + sumSds (rest.take j') := by
          simp [sumSds]
        rw [hs]
        by_cases hj0 : j' = 0
        · subst hj0
          simp only [List.take_zero]
          have : sumSds ([] : List Subdirectory) = 0 := by simp [sumSds]
          omega
        · have := hmin j' (by omega) (by omega)
          omega

theorem firstCross_none_spec (total : Int) :
    ∀ (l : List Subdirectory) (c : Int), firstCross total c l = none →
      ∀ j, 1 ≤ j → j ≤ l.length → ¬ 5 * (c + sumSds (l.take j)) > 4 * total
  | [], c, _, j, h1, h2 => by simp at h1 h2; omega
  | sd :: rest, c, h, j, h1, h2 => by
    rw [firstCross_cons] at h
    by_cases hc : 5 * (c + sdTotalChanges sd) > 4 * total
    · rw [if_pos hc] at h; cases h
    · rw [if_neg hc, Option.map_eq_none'] at h
      obtain ⟨j', rfl⟩ : ∃ j', j = j' + 1 := ⟨j - 1, by omega⟩
      have htake : (sd :: rest).take (j' + 1) = sd :: rest.take j' := by simp
      rw [htake]
      have hs : sumSds (sd :: rest.take j') =
          sdTotalChanges sd + sumSds (rest.take j') := by
        simp [sumSds]
      rw [hs]
      by_cases hj0 : j' = 0
      · subst hj0
        simp only [List.take_zero]
        have : sumSds ([] : List Subdirectory) = 0 := by simp [sumSds]
        omega
      · have := firstCross_none_spec total rest (c + sdTotalChanges sd) h j'
          (by omega) (by simp at h2; omega)
        omega


/-- C3, counterexample to the stable tie-break: for a PR with two groups of
equal change sums, `sort.Sort`'s contract permits the reversed group order,
so the breakdown need not equal the spec's stable-tie-break result
(`specSubdirectoryBreakdown`). -/
theorem claim3_counterexample :
    SubdirsOutput (mkPR 3 "open" 0 0 0 "" [⟨"a/x", 10⟩, ⟨"b/y", 10⟩])
      [⟨"b", [⟨"b/y", 10⟩]⟩, ⟨"a", [⟨"a/x", 10⟩]⟩] ∧
    0 < prTotalChanges (mkPR 3 "open" 0 0 0 "" [⟨"a/x", 10⟩, ⟨"b/y", 10⟩]) ∧
    ¬ ([⟨"b", [⟨"b/y", 10⟩]⟩, ⟨"a", [⟨"a/x", 10⟩]⟩] : List Subdirectory) =
      specSubdirectoryBreakdown (mkPR 3 "open" 0 0 0 "" [⟨"a/x", 10⟩, ⟨"b/y", 10⟩]) := by
  refine ⟨⟨[⟨"b", [⟨"b/y", 10⟩]⟩, ⟨"a", [⟨"a/x", 10⟩]⟩], ⟨?_, ?_⟩, ?_⟩, ?_, ?_⟩ <;> decide

/-- C3 amended: for a PR with positive `TotalChanges`, `Subdirectories`
groups the files by parent directory, sorts the groups into descending
order of per-group change sum (tie order **unspecified** — `sort.Sort` is
not stable), and returns exactly the minimal prefix of that sorted list
whose cumulative change sum strictly exceeds 80% of `TotalChanges`; at
least one group is always returned. -/
theorem claim3_subdirectory_truncation (pr : PullRequest) (out : List Subdirectory)
    (h : SubdirsOutput pr out) (hpos : 0 < prTotalChanges pr) :
    ∃ sorted m,
      GoSortOutput sdLess (groupFiles pr.files) sorted ∧
      out = sorted.take m ∧
      1 ≤ m ∧ m ≤ sorted.length ∧
      5 * sumSds (sorted.take m) > 4 * prTotalChanges pr ∧
      (∀ j, j < m → ¬ 5 * sumSds (sorted.take j) > 4 * prTotalChanges pr) := by
  obtain ⟨sorted, hsort, hout⟩ := h
  have hsum : sumSds sorted = prTotalChanges pr := by
    rw [sumSds_perm hsort.1, sumSds_groupFiles]
  cases hfc : firstCross (prTotalChanges pr) 0 sorted with
  | none =>
    exfalso
    have hne : sorted ≠ [] := by
      intro hnil
      rw [hnil] at hsum
      simp [sumSds] at hsum
      omega
    have hlen : 1 ≤ sorted.length := by
      cases sorted with
      | nil => exact absurd rfl hne
      | cons a l => simp
    have := firstCross_none_spec (prTotalChanges pr) sorted 0 hfc sorted.length hlen le_rfl
    rw [List.take_length] at this
    omega
  | some i =>
    obtain ⟨hlen, hcross, hmin⟩ := firstCross_spec (prTotalChanges pr) sorted 0 i hfc
    refine ⟨sorted, i + 1, hsort, ?_, by omega, by omega, ?_, ?_⟩
    · rw [hout, truncateSds, hfc]
    · omega
    · intro j hj
      by_cases hj0 : j = 0
      · subst hj0
        simp only [List.take_zero]
        have : sumSds ([] : List Subdirectory) = 0 := by simp [sumSds]
        omega
      · have := hmin j (by omega) (by omega)
        omega

/-- Witness for C3 (amended) at a concrete PR with unequal group sums. -/
theorem claim3_subdirectory_truncation_witness :
    ∃ sorted m,
      GoSortOutput sdLess
        (groupFiles (mkPR 3 "open" 0 0 0 "" [⟨"a/x", 1⟩, ⟨"b/y", 50⟩]).files) sorted ∧
      ([⟨"b", [⟨"b/y", 50⟩]⟩] : List Subdirectory) = sorted.take m ∧
      1 ≤ m ∧ m ≤ sorted.length ∧
      5 * sumSds (sorted.take m) >
        4 * prTotalChanges (mkPR 3 "open" 0 0 0 "" [⟨"a/x", 1⟩, ⟨"b/y", 50⟩]) ∧
      (∀ j, j < m → ¬ 5 * sumSds (sorted.take j) >
        4 * prTotalChanges (mkPR 3 "open" 0 0 0 "" [⟨"a/x", 1⟩, ⟨"b/y", 50⟩])) :=
  claim3_subdirectory_truncation (mkPR 3 "open" 0 0 0 "" [⟨"a/x", 1⟩, ⟨"b/y", 50⟩])
    [⟨"b", [⟨"b/y", 50⟩]⟩]
    ⟨[⟨"b", [⟨"b/y", 50⟩]⟩, ⟨"a", [⟨"a/x", 1⟩]⟩], ⟨by decide, by decide⟩, by decide⟩
    (by decide)



theorem insertFile_mem (sds : List Subdirectory) (d : String) (f : File) :
    ∀ g ∈ insertFile sds d f, (g ∈ sds) ∨ (g = ⟨d, [f]⟩) ∨
      (∃ g0 ∈ sds, g = ⟨g0.name, g0.files ++ [f]⟩) := by
  induction sds with
  | nil =>
    intro g hg
    simp [insertFile] at hg
    exact Or.inr (Or.inl hg)
  | cons sd rest ih =>
    intro g hg
    by_cases h : sd.name = d
    · simp only [insertFile, h, if_true] at hg
      rcases List.mem_cons.mp hg with rfl | hg2
      · exact Or.inr (Or.inr ⟨sd, by simp, by simp [h]⟩)
      · exact Or.inl (by simp [hg2])
    · simp only [insertFile, h, if_false] at hg
      rcases List.mem_cons.mp hg with rfl | hg2
      · exact Or.inl (by simp)
      · rcases ih g hg2 with h1 | h2 | ⟨g0, hg0, he⟩
        · exact Or.inl (by simp [h1])
        · exact Or.inr (Or.inl h2)
        · exact Or.inr (Or.inr ⟨g0, by simp [hg0], he⟩)

theorem groupFiles_files_from (fs : List File) :
    ∀ (acc : List Subdirectory)
      (g : Subdirectory),
      g ∈ fs.foldl (fun sds f => insertFile sds (dirOf f) f) acc →
      ∀ x ∈ g.files, (∃ g0 ∈ acc, x ∈ g0.files) ∨ x ∈ fs := by
  induction fs with
  | nil =>
    intro acc g hg x hx
    exact Or.inl ⟨g, hg, hx⟩
  | cons f rest ih =>
    intro acc g hg x hx
    simp only [List.foldl_cons] at hg
    rcases ih (insertFile acc (dirOf f) f) g hg x hx with ⟨g0, hg0, hx0⟩ | hrest
    · rcases insertFile_mem acc (dirOf f) f g0 hg0 with h1 | h2 | ⟨g1, hg1, he⟩
      · exact Or.inl ⟨g0, h1, hx0⟩
      · subst h2
        simp at hx0
        subst hx0
        exact Or.inr (by simp)
      · subst he
        simp at hx0
        rcases hx0 with hx1 | hx1
        · exact Or.inl ⟨g1, hg1, hx1⟩
        · subst hx1
          exact Or.inr (by simp)
    · exact Or.inr (by simp [hrest])

theorem groupFiles_zero (fs : List File) (hz : ∀ f ∈ fs, f.changes = 0) :
    ∀ g ∈ groupFiles fs, sdTotalChanges g = 0 := by
  intro g hg
  have hmem : ∀ x ∈ g.files, x ∈ fs := by
    intro x hx
    rcases groupFiles_files_from fs [] g hg x hx with ⟨g0, hg0, _⟩ | h
    · simp at hg0
    · exact h
  rw [sdTotalChanges]
  have : ∀ v ∈ g.files.map (fun f => f.changes), v = 0 := by
    intro v hv
    obtain ⟨x, hx, rfl⟩ := List.mem_map.mp hv
    exact hz x (hmem x hx)
  exact List.sum_eq_zero this

theorem firstCross_zero (total : Int) (htz : total = 0) :
    ∀ (l : List Subdirectory) (c : Int), c = 0 →
      (∀ g ∈ l, sdTotalChanges g = 0) → firstCross total c l = none
  | [], c, _, _ => rfl
  | sd :: rest, c, hc, hl => by
    have h0 : sdTotalChanges sd = 0 := hl sd (by simp)
    rw [firstCross_cons]
    rw [if_neg (by omega)]
    rw [firstCross_zero total htz rest (c + sdTotalChanges sd) (by omega)
      (fun g hg => hl g (by simp [hg]))]
    rfl

theorem insertFile_ne_nil (sds : List Subdirectory) (d : String) (f : File) :
    ¬ insertFile sds d f = [] := by
  cases sds with
  | nil => simp [insertFile]
  | cons sd rest =>
    by_cases h : sd.name = d
    · simp [insertFile, h]
    · simp [insertFile, h]

theorem foldl_insertFile_ne_nil (fs : List File) :
    ∀ acc : List Subdirectory, ¬ acc = [] →
      ¬ fs.foldl (fun sds f => insertFile sds (dirOf f) f) acc = [] := by
  induction fs with
  | nil => intro acc h; simpa using h
  | cons f rest ih =>
    intro acc _
    simp only [List.foldl_cons]
    exact ih _ (insertFile_ne_nil acc (dirOf f) f)

theorem groupFiles_nil_iff (fs : List File) :
    groupFiles fs = [] ↔ fs = [] := by
  constructor
  · intro h
    cases fs with
    | nil => rfl
    | cons f rest =>
      exfalso
      rw [groupFiles, List.foldl_cons] at h
      exact foldl_insertFile_ne_nil rest _ (insertFile_ne_nil [] (dirOf f) f) h
  · intro h
    subst h
    rfl

theorem prTotalChanges_zero_of_files (pr : PullRequest)
    (hz : ∀ f ∈ pr.files, f.changes = 0) : prTotalChanges pr = 0 := by
  rw [prTotalChanges]
  refine List.sum_eq_zero ?_
  intro v hv
  obtain ⟨x, hx, rfl⟩ := List.mem_map.mp hv
  exact hz x hx

/-- C7, counterexample: a PR with one zero-change file has
`TotalChanges = 0` but `Subdirectories` returns its (single) group, not the
empty list — the 80% cutoff `float64(count)/float64(total) > 0.80` is a
NaN/`+Inf` comparison when `total == 0` and the loop never truncates,
so the code does not "return no groups". -/
theorem claim7_counterexample :
    SubdirsOutput (mkPR 7 "open" 0 0 0 "" [⟨"a/x", 0⟩]) [⟨"a", [⟨"a/x", 0⟩]⟩] ∧
    prTotalChanges (mkPR 7 "open" 0 0 0 "" [⟨"a/x", 0⟩]) = 0 ∧
    ¬ ([⟨"a", [⟨"a/x", 0⟩]⟩] : List Subdirectory) = [] := by
  refine ⟨⟨[⟨"a", [⟨"a/x", 0⟩]⟩], ⟨?_, ?_⟩, ?_⟩, ?_, ?_⟩ <;> decide

/-- C7 amended: for a PR whose files all have zero `Changes` (so
`TotalChanges = 0`), `Subdirectories` returns *all* groups (one per
distinct parent directory, in some `sort.Sort`-permitted order): the
truncation never fires, and the result is empty exactly when the PR has no
files. -/
theorem claim7_zero_total (pr : PullRequest) (out : List Subdirectory)
    (h : SubdirsOutput pr out) (hz : ∀ f ∈ pr.files, f.changes = 0) :
    out.Perm (groupFiles pr.files) ∧ (out = [] ↔ pr.files = []) := by
  obtain ⟨sorted, hsort, hout⟩ := h
  have htz : prTotalChanges pr = 0 := prTotalChanges_zero_of_files pr hz
  have hzg : ∀ g ∈ sorted, sdTotalChanges g = 0 := by
    intro g hg
    exact groupFiles_zero pr.files hz g (hsort.1.mem_iff.mp hg)
  have hfc : firstCross (prTotalChanges pr) 0 sorted = none :=
    firstCross_zero _ htz sorted 0 rfl hzg
  have hos : out = sorted := by
    rw [hout, truncateSds, hfc]
  subst hos
  refine ⟨hsort.1, ?_⟩
  rw [← groupFiles_nil_iff pr.files]
  have hlen := hsort.1.length_eq
  constructor
  · intro h0
    rw [h0] at hlen
    simpa using hlen.symm
  · intro h0
    rw [h0] at hlen
    simpa using hlen

/-- Witness for C7 (amended) on a one-zero-change-file PR. -/
theorem claim7_zero_total_witness :
    ([⟨"a", [⟨"a/x", 0⟩]⟩] : List Subdirectory).Perm
      (groupFiles (mkPR 7 "open" 0 0 0 "" [⟨"a/x", 0⟩]).files) ∧
    (([⟨"a", [⟨"a/x", 0⟩]⟩] : List Subdirectory) = [] ↔
      (mkPR 7 "open" 0 0 0 "" [⟨"a/x", 0⟩]).files = []) :=
  claim7_zero_total (mkPR 7 "open" 0 0 0 "" [⟨"a/x", 0⟩]) [⟨"a", [⟨"a/x", 0⟩]⟩]
    ⟨[⟨"a", [⟨"a/x", 0⟩]⟩], ⟨by decide, by decide⟩, by decide⟩ (by decide)



theorem dropWhile_all_nil {α} (q : α → Bool) :
    ∀ l : List α, (∀ c ∈ l, q c = true) → l.dropWhile q = []
  | [], _ => rfl
  | a :: as, h => by
    have ha := h a (by simp)
    simp only [List.dropWhile, ha]
    exact dropWhile_all_nil q as (fun c hc => h c (by simp [hc]))

theorem dirPart_no_slash (p : List Char) (h : ∀ c ∈ p, ¬ c = '/') :
    dirPart p = [] := by
  rw [dirPart]
  rw [dropWhile_all_nil _ p.reverse ?_]
  · rfl
  · intro c hc
    have := h c (List.mem_reverse.mp hc)
    simpa using this

theorem dirOf_root (f : File) (h : ∀ c ∈ f.filename.data, ¬ c = '/') :
    dirOf f = "." := by
  have h1 : dirPart f.filename.data = [] := dirPart_no_slash _ h
  rw [dirOf, goPathDir, h1]
  decide

theorem insertFile_keeps (d : String) (f : File) :
    ∀ (sds : List Subdirectory) (d0 : String) (x : File),
      (∃ g ∈ sds, g.name = d0 ∧ x ∈ g.files) →
      ∃ g ∈ insertFile sds d f, g.name = d0 ∧ x ∈ g.files := by
  intro sds d0 x h
  induction sds with
  | nil =>
    obtain ⟨g, hg, _⟩ := h
    simp at hg
  | cons sd rest ih =>
    obtain ⟨g, hg, hname, hx⟩ := h
    by_cases hd : sd.name = d
    · rcases List.mem_cons.mp hg with rfl | hg2
      · exact ⟨⟨g.name, g.files ++ [f]⟩, by simp [insertFile, hd], hname, by simp [hx]⟩
      · exact ⟨g, by simp [insertFile, hd, hg2], hname, hx⟩
    · rcases List.mem_cons.mp hg with rfl | hg2
      · exact ⟨g, by simp [insertFile, hd], hname, hx⟩
      · obtain ⟨g', hg', hn', hx'⟩ := ih ⟨g, hg2, hname, hx⟩
        exact ⟨g', by simp [insertFile, hd, hg'], hn', hx'⟩

theorem insertFile_adds (f : File) (d : String) :
    ∀ sds, ∃ g ∈ insertFile sds d f, g.name = d ∧ f ∈ g.files
  | [] => ⟨⟨d, [f]⟩, by simp [insertFile]⟩
  | sd :: rest => by
    by_cases h : sd.name = d
    · exact ⟨⟨sd.name, sd.files ++ [f]⟩, by simp [insertFile, h], h, by simp⟩
    · obtain ⟨g, hg, hn, hx⟩ := insertFile_adds f d rest
      exact ⟨g, by simp [insertFile, h, hg], hn, hx⟩

theorem foldl_insertFile_keeps (fs : List File) :
    ∀ (acc : List Subdirectory) (d0 : String) (x : File),
      (∃ g ∈ acc, g.name = d0 ∧ x ∈ g.files) →
      ∃ g ∈ fs.foldl (fun sds f => insertFile sds (dirOf f) f) acc,
        g.name = d0 ∧ x ∈ g.files := by
  induction fs with
  | nil =>
    intro acc d0 x h
    simpa using h
  | cons f rest ih =>
    intro acc d0 x h
    simp only [List.foldl_cons]
    exact ih _ d0 x (insertFile_keeps (dirOf f) f acc d0 x h)

theorem groupFiles_has (fs : List File) :
    ∀ f ∈ fs, ∃ g ∈ groupFiles fs, g.name = dirOf f ∧ f ∈ g.files := by
  suffices h : ∀ (acc : List Subdirectory), ∀ f ∈ fs,
      ∃ g ∈ fs.foldl (fun sds f => insertFile sds (dirOf f) f) acc,
        g.name = dirOf f ∧ f ∈ g.files by
    intro f hf
    exact h [] f hf
  induction fs with
  | nil =>
    intro acc f hf
    simp at hf
  | cons f0 rest ih =>
    intro acc f hf
    simp only [List.foldl_cons]
    rcases List.mem_cons.mp hf with rfl | hf2
    · exact foldl_insertFile_keeps rest _ (dirOf f) f (insertFile_adds f (dirOf f) acc)
    · exact ih _ f hf2

/-- C8, counterexample: a PR whose only file is the root file `README.md`
has a (unique-up-to-permutation) breakdown whose single group is named
`"."`, not `"/"` — `path.Dir` of a slash-free name is `"."`, never the
empty string, so the `dir = "/"` sentinel branch cannot fire. -/
theorem claim8_counterexample :
    SubdirsOutput (mkPR 8 "open" 0 0 0 "" [⟨"README.md", 5⟩])
      [⟨".", [⟨"README.md", 5⟩]⟩] ∧
    (∀ c ∈ ("README.md".data), ¬ c = '/') ∧
    (∀ g ∈ ([⟨".", [⟨"README.md", 5⟩]⟩] : List Subdirectory), ¬ g.name = "/") := by
  refine ⟨⟨[⟨".", [⟨"README.md", 5⟩]⟩], ⟨?_, ?_⟩, ?_⟩, ?_, ?_⟩ <;> decide

/-- C8 amended: a repository-root file (no `'/'` in its path) is grouped
under the name `"."` (Go's `path.Dir` returns `"."` for such paths), and
`path.Clean` never returns an empty string, so the `"/"` sentinel branch of
`Subdirectories` is dead code. -/
theorem claim8_root_files_dot (pr : PullRequest) (f : File) (hf : f ∈ pr.files)
    (hroot : ∀ c ∈ f.filename.data, ¬ c = '/') :
    (∃ g ∈ groupFiles pr.files, g.name = "." ∧ f ∈ g.files) ∧
    (∀ p : List Char, ¬ goPathClean p = []) := by
  constructor
  · have h := groupFiles_has pr.files f hf
    rw [dirOf_root f hroot] at h
    exact h
  · intro p
    rw [goPathClean]
    split
    · simp
    · dsimp only
      split <;> split <;> simp_all

/-- Witness for C8 (amended) on the `README.md` example. -/
theorem claim8_root_files_dot_witness :
    (∃ g ∈ groupFiles (mkPR 8 "open" 0 0 0 "" [⟨"README.md", 5⟩]).files,
      g.name = "." ∧ (⟨"README.md", 5⟩ : File) ∈ g.files) ∧
    ¬ goPathClean "x".data = [] :=
  ⟨(claim8_root_files_dot (mkPR 8 "open" 0 0 0 "" [⟨"README.md", 5⟩])
      ⟨"README.md", 5⟩ (by decide) (by decide)).1,
   (claim8_root_files_dot (mkPR 8 "open" 0 0 0 "" [⟨"README.md", 5⟩])
      ⟨"README.md", 5⟩ (by decide) (by decide)).2 "x".data⟩


/-! ## Monthly counter theorems -/

theorem monthSlotsAux_congr (ms : MonthStep) (since : Int) :
    ∀ (f₁ f₂ : Nat) (t : Int), (t + 1 - since).toNat ≤ f₁ → (t + 1 - since).toNat ≤ f₂ →
      monthSlotsAux ms since f₁ t = monthSlotsAux ms since f₂ t
  | 0, f₂, t, h1, h2 => by
    have hts : ¬ since ≤ t := by omega
    cases f₂ with
    | zero => rfl
    | succ f => simp [monthSlotsAux, hts]
  | f₁ + 1, f₂, t, h1, h2 => by
    cases f₂ with
    | zero =>
      have hts : ¬ since ≤ t := by omega
      simp [monthSlotsAux, hts]
    | succ f =>
      by_cases hts : since ≤ t
      · have hstep := ms.lt t
        simp only [monthSlotsAux, if_pos hts]
        rw [monthSlotsAux_congr ms since f₁ f (ms.step t) (by omega) (by omega)]
      · simp [monthSlotsAux, hts]

theorem monthSlots_eq (ms : MonthStep) (since t : Int) :
    monthSlots ms since t =
      if since ≤ t then 0 :: monthSlots ms since (ms.step t) else [] := by
  by_cases h : since ≤ t
  · rw [if_pos h, monthSlots, monthSlots]
    have hstep := ms.lt t
    have hf : (t + 1 - since).toNat = ((t + 1 - since).toNat - 1) + 1 := by omega
    rw [hf]
    simp only [monthSlotsAux, if_pos h]
    rw [monthSlotsAux_congr ms since ((t + 1 - since).toNat - 1)
      ((ms.step t + 1 - since).toNat) (ms.step t) (by omega) (by omega)]
  · rw [if_neg h, monthSlots]
    cases hf : (t + 1 - since).toNat with
    | zero => rfl
    | succ f => simp [monthSlotsAux, h]

theorem fillCountsAux_congr (ms : MonthStep) (prT : Int) :
    ∀ (f₁ f₂ : Nat) (s : MCState), (s.nextT - prT).toNat ≤ f₁ →
      (s.nextT - prT).toNat ≤ f₂ →
      fillCountsAux ms prT f₁ s = fillCountsAux ms prT f₂ s
  | 0, f₂, s, h1, h2 => by
    have hts : ¬ prT < s.nextT := by omega
    cases f₂ with
    | zero => rfl
    | succ f => simp [fillCountsAux, hts]
  | f₁ + 1, f₂, s, h1, h2 => by
    cases f₂ with
    | zero =>
      have hts : ¬ prT < s.nextT := by omega
      simp [fillCountsAux, hts]
    | succ f =>
      by_cases hts : prT < s.nextT
      · have hstep := ms.lt s.nextT
        simp only [fillCountsAux, if_pos hts]
        cases hw : writeAt s.counts s.idx s.monthTotal with
        | none => rfl
        | some cs =>
          exact fillCountsAux_congr ms prT f₁ f _
            (by show (ms.step s.nextT - prT).toNat ≤ f₁; omega)
            (by show (ms.step s.nextT - prT).toNat ≤ f; omega)
      · simp [fillCountsAux, hts]

theorem fillCounts_eq (ms : MonthStep) (prT : Int) (s : MCState) :
    fillCounts ms prT s =
      if prT < s.nextT then
        match writeAt s.counts s.idx s.monthTotal with
        | none => none
        | some cs =>
          fillCounts ms prT
            { idx := s.idx + 1, monthTotal := 0, t := s.nextT, nextT := ms.step s.nextT,
              counts := cs }
      else some s := by
  by_cases h : prT < s.nextT
  · rw [if_pos h]
    simp only [fillCounts]
    have hstep := ms.lt s.nextT
    have hf : (s.nextT - prT).toNat = ((s.nextT - prT).toNat - 1) + 1 := by omega
    rw [hf]
    simp only [fillCountsAux, if_pos h]
    cases hw : writeAt s.counts s.idx s.monthTotal with
    | none => rfl
    | some cs =>
      exact fillCountsAux_congr ms prT ((s.nextT - prT).toNat - 1) _ _
        (by show (ms.step s.nextT - prT).toNat ≤ _; omega)
        (by show (ms.step s.nextT - prT).toNat ≤ _; omega)
  · rw [if_neg h]
    simp only [fillCounts]
    cases hf : (s.nextT - prT).toNat with
    | zero => rfl
    | succ f => simp [fillCountsAux, h]


theorem countRecs_append_stale (ms : MonthStep) (since : Int) (r : PullRequest)
    (p₂ : List PullRequest) (hr : r.createdAt ≤ since) :
    ∀ (p₁ : List PullRequest) (s : MCState), (∀ x ∈ p₁, since < x.createdAt) →
    countRecs ms since (p₁ ++ r :: p₂) s =
      (match countRecs ms since p₁ s with
       | none => none
       | some (s', _) => some (s', true))
  | [], s, _ => by simp [countRecs, hr]
  | x :: rest, s, hlive => by
    have hx : ¬ x.createdAt ≤ since := by
      have := hlive x (by simp)
      omega
    simp only [List.cons_append, countRecs, hx, if_false]
    cases hf : fillCounts ms x.createdAt s with
    | none => rfl
    | some s' =>
      exact countRecs_append_stale ms since r p₂ hr rest _
        (fun y hy => hlive y (by simp [hy]))

theorem countRecs_live (ms : MonthStep) (since : Int) :
    ∀ (p : List PullRequest) (s : MCState), (∀ x ∈ p, since < x.createdAt) →
    countRecs ms since p s = none ∨ ∃ s', countRecs ms since p s = some (s', false)
  | [], s, _ => Or.inr ⟨s, rfl⟩
  | x :: rest, s, hlive => by
    have hx : ¬ x.createdAt ≤ since := by
      have := hlive x (by simp)
      omega
    simp only [countRecs, hx, if_false]
    cases hf : fillCounts ms x.createdAt s with
    | none => exact Or.inl rfl
    | some s' =>
      exact countRecs_live ms since rest _ (fun y hy => hlive y (by simp [hy]))

theorem countPages_append_stale (ms : MonthStep) (since : Int)
    (p₁ p₂ : List PullRequest) (r : PullRequest) (ps₂ : List (List PullRequest))
    (hr : r.createdAt ≤ since) :
    ∀ (ps₁ : List (List PullRequest)) (s : MCState),
      (∀ x ∈ ps₁.flatten ++ p₁, since < x.createdAt) →
      countPages ms since (ps₁ ++ (p₁ ++ r :: p₂) :: ps₂) s =
        countPages ms since (ps₁ ++ [p₁]) s
  | [], s, hlive => by
    have hlive1 : ∀ x ∈ p₁, since < x.createdAt := fun x hx => hlive x (by simp [hx])
    have he := countRecs_append_stale ms since r p₂ hr p₁ s hlive1
    rcases countRecs_live ms since p₁ s hlive1 with hn | ⟨s', hs⟩
    · rw [hn] at he
      simp only [List.nil_append, countPages, he, hn]
    · rw [hs] at he
      simp only [List.nil_append, countPages, he, hs]
  | q :: qs, s, hlive => by
    have hq : ∀ x ∈ q, since < x.createdAt := fun x hx => hlive x (by simp [hx])
    have ih := countPages_append_stale ms since p₁ p₂ r ps₂ hr qs
    rcases countRecs_live ms since q s hq with hn | ⟨s', hs⟩
    · simp only [List.cons_append, countPages, hn]
    · simp only [List.cons_append, countPages, hs]
      exact ih s' (fun x hx => hlive x (by
        simp only [List.flatten_cons, List.mem_append] at hx ⊢
        tauto))

/-- C6, counterexample: with one-unit month steps, `now = 2`, `since = 0`
(three slots) and a single fetched record created exactly at `since`, the
run counts nothing — every slot stays `0`, and in particular the oldest
slot holds `0`, not `1`: the record created exactly on `since` fails
`FetchSince.Before(prT)` and triggers the early exit *before* being
counted, so it is not counted in the oldest bucket (or anywhere). -/
theorem claim6_counterexample :
    (mkPR 6 "open" 0 9 0 "" []).createdAt = (0 : Int) ∧
    countMonthly msUnit 0 2 [[[mkPR 6 "open" 0 9 0 "" []]]] = some [0, 0, 0] ∧
    ([0, 0, 0] : List Int).getLast? = some 0 :=
  ⟨rfl, by decide, rfl⟩

/-- C6 amended: a record whose `created_at` is not strictly after `since`
(in particular one created exactly at `since`) is never counted by
`CountMonthlyPullRequests`: the scan stops at it, and the final counts
equal those of a run whose fetch stream ends just before that record. -/
theorem claim6_boundary_not_counted (ms : MonthStep) (since now : Int)
    (p₁ p₂ : List PullRequest) (r : PullRequest)
    (ps₁ ps₂ : List (List PullRequest)) (counts : List Int)
    (hlive : ∀ x ∈ ps₁.flatten ++ p₁, since < x.createdAt)
    (hr : r.createdAt ≤ since) :
    countMonthlyPullRequests ms since now (ps₁ ++ (p₁ ++ r :: p₂) :: ps₂) counts =
      countMonthlyPullRequests ms since now (ps₁ ++ [p₁]) counts := by
  simp only [countMonthlyPullRequests]
  rw [countPages_append_stale ms since p₁ p₂ r ps₂ hr ps₁ _ hlive]

/-- Witness for C6 (amended): a concrete run where a record created
exactly at `since` (amid later records and pages) leaves the counts
exactly as if the stream had ended before it. -/
theorem claim6_boundary_not_counted_witness :
    countMonthlyPullRequests msUnit 0 2
      ([] ++ ([mkPR 5 "open" 1 9 0 "" []] ++ mkPR 6 "open" 0 9 0 "" [] ::
        [mkPR 4 "open" 2 9 0 "" []]) :: [[mkPR 3 "open" 1 9 0 "" []]]) [0, 0, 0] =
    countMonthlyPullRequests msUnit 0 2 ([] ++ [[mkPR 5 "open" 1 9 0 "" []]]) [0, 0, 0] :=
  claim6_boundary_not_counted msUnit 0 2 [mkPR 5 "open" 1 9 0 "" []]
    [mkPR 4 "open" 2 9 0 "" []] (mkPR 6 "open" 0 9 0 "" []) []
    [[mkPR 3 "open" 1 9 0 "" []]] [0, 0, 0] (by decide) (by decide)



theorem iterStep_succ (ms : MonthStep) :
    ∀ (k : Nat) (t : Int), iterStep ms (k + 1) t = ms.step (iterStep ms k t)
  | 0, t => rfl
  | k + 1, t => by
    show iterStep ms (k + 1) (ms.step t) = ms.step (iterStep ms (k + 1) t)
    rw [iterStep_succ ms k (ms.step t)]
    rfl

theorem iterStep_le (ms : MonthStep) :
    ∀ (k : Nat) (t : Int), iterStep ms k t ≤ t
  | 0, t => le_refl t
  | k + 1, t => by
    rw [iterStep_succ]
    have h1 := iterStep_le ms k t
    have h2 := ms.lt (iterStep ms k t)
    omega

theorem lt_monthSlots_length (ms : MonthStep) (since : Int) :
    ∀ (k : Nat) (now : Int), since ≤ iterStep ms k now →
      k < (monthSlots ms since now).length
  | 0, now, h => by
    have h' : since ≤ now := h
    rw [monthSlots_eq, if_pos h']
    simp
  | k + 1, now, h => by
    have hnow : since ≤ now := le_trans h (iterStep_le ms (k + 1) now)
    rw [monthSlots_eq, if_pos hnow]
    simp only [List.length_cons]
    have hx : since ≤ iterStep ms k (ms.step now) := h
    exact Nat.succ_lt_succ (lt_monthSlots_length ms since k (ms.step now) hx)

theorem writeAt_some (l : List Int) (i : Nat) (v : Int) (h : i < l.length) :
    ∃ cs, writeAt l i v = some cs ∧ cs.length = l.length := by
  refine ⟨l.set i (l.get ⟨i, h⟩ + v), ?_, by simp⟩
  rw [writeAt, dif_pos h]

theorem MCInv_idx_lt (ms : MonthStep) (since now : Int) (s : MCState)
    (h : MCInv ms since now s) : s.idx < s.counts.length := by
  obtain ⟨ht, _, hle, hlen⟩ := h
  rw [hlen]
  exact lt_monthSlots_length ms since s.idx now (ht ▸ hle)

theorem fillCountsAux_inv (ms : MonthStep) (since now prT : Int) (hp : since ≤ prT) :
    ∀ (fuel : Nat) (s : MCState), (s.nextT - prT).toNat ≤ fuel →
      MCInv ms since now s →
      ∃ s', fillCountsAux ms prT fuel s = some s' ∧ MCInv ms since now s'
  | 0, s, _, hinv => ⟨s, rfl, hinv⟩
  | fuel + 1, s, hfuel, hinv => by
    by_cases h : prT < s.nextT
    · have hidx : s.idx < s.counts.length := MCInv_idx_lt ms since now s hinv
      obtain ⟨cs, hw, hlen⟩ := writeAt_some s.counts s.idx s.monthTotal hidx
      have hstep := ms.lt s.nextT
      have hinv' : MCInv ms since now
          { idx := s.idx + 1, monthTotal := 0, t := s.nextT, nextT := ms.step s.nextT,
            counts := cs } := by
        obtain ⟨ht, hn, hle, hl⟩ := hinv
        refine ⟨?_, rfl, by show since ≤ s.nextT; omega,
          by show cs.length = _; rw [hlen, hl]⟩
        show s.nextT = iterStep ms (s.idx + 1) now
        rw [iterStep_succ, ← ht, ← hn]
      obtain ⟨s', hs', hinv''⟩ := fillCountsAux_inv ms since now prT hp fuel
        { idx := s.idx + 1, monthTotal := 0, t := s.nextT, nextT := ms.step s.nextT,
          counts := cs }
        (by show (ms.step s.nextT - prT).toNat ≤ fuel; omega) hinv'
      refine ⟨s', ?_, hinv''⟩
      simp only [fillCountsAux, if_pos h, hw]
      exact hs'
    · exact ⟨s, by simp [fillCountsAux, h], hinv⟩

theorem fillCounts_inv (ms : MonthStep) (since now prT : Int) (hp : since ≤ prT)
    (s : MCState) (hinv : MCInv ms since now s) :
    ∃ s', fillCounts ms prT s = some s' ∧ MCInv ms since now s' :=
  fillCountsAux_inv ms since now prT hp ((s.nextT - prT).toNat) s le_rfl hinv

theorem MCInv_monthTotal (ms : MonthStep) (since now : Int) (s : MCState) (v : Int)
    (h : MCInv ms since now s) : MCInv ms since now { s with monthTotal := v } := h

theorem countRecs_inv (ms : MonthStep) (since now : Int) :
    ∀ (p : List PullRequest) (s : MCState), MCInv ms since now s →
      ∃ res, countRecs ms since p s = some res ∧ MCInv ms since now res.1
  | [], s, hinv => ⟨(s, false), rfl, hinv⟩
  | x :: rest, s, hinv => by
    by_cases hx : x.createdAt ≤ since
    · exact ⟨(s, true), by simp [countRecs, hx], hinv⟩
    · obtain ⟨s', hs', hinv'⟩ := fillCounts_inv ms since now x.createdAt (by omega) s hinv
      obtain ⟨res, hres, hinvr⟩ := countRecs_inv ms since now rest
        { s' with monthTotal := s'.monthTotal + 1 } (MCInv_monthTotal ms since now s' _ hinv')
      exact ⟨res, by simp [countRecs, hx, hs', hres], hinvr⟩

theorem countPages_inv (ms : MonthStep) (since now : Int) :
    ∀ (pages : List (List PullRequest)) (s : MCState), MCInv ms since now s →
      ∃ s', countPages ms since pages s = some s' ∧ MCInv ms since now s'
  | [], s, hinv => ⟨s, rfl, hinv⟩
  | p :: ps, s, hinv => by
    obtain ⟨⟨s', flag⟩, hres, hinv'⟩ := countRecs_inv ms since now p s hinv
    cases flag with
    | true => exact ⟨s', by simp [countPages, hres], hinv'⟩
    | false =>
      obtain ⟨s'', hs'', hinv''⟩ := countPages_inv ms since now ps s' hinv'
      exact ⟨s'', by simp [countPages, hres, hs''], hinv''⟩

theorem countMonthlyPullRequests_some (ms : MonthStep) (since now : Int)
    (pages : List (List PullRequest)) (counts : List Int)
    (hnow : since ≤ now) (hlen : counts.length = (monthSlots ms since now).length) :
    ∃ out, countMonthlyPullRequests ms since now pages counts = some out ∧
      out.length = counts.length := by
  have hinv0 : MCInv ms since now ⟨0, 0, now, ms.step now, counts⟩ :=
    ⟨rfl, rfl, hnow, hlen⟩
  obtain ⟨s1, hs1, hinv1⟩ := countPages_inv ms since now pages _ hinv0
  obtain ⟨s2, hs2, hinv2⟩ := fillCounts_inv ms since now since le_rfl s1 hinv1
  have hidx : s2.idx < s2.counts.length := MCInv_idx_lt ms since now s2 hinv2
  obtain ⟨cs, hw, hlo⟩ := writeAt_some s2.counts s2.idx s2.monthTotal hidx
  refine ⟨cs, ?_, ?_⟩
  · simp only [countMonthlyPullRequests, hs1, hs2, hw]
  · rw [hlo, hinv2.2.2.2, hlen]

/-- C10: with `Now` not before `FetchSince`, every counts-slice access
performed by `CountMonthlyPullRequests` — including the final
`counts[idx] += monthTotal` — is within the bounds of the slice allocated
by `CountMonthly` (one slot per month from `Now` back to `FetchSince`), for
every repository and fetch stream: the whole run completes without any
out-of-range index (modelled as `none`). -/
theorem claim10_counts_in_bounds (ms : MonthStep) (since now : Int)
    (repoPages : List (List (List PullRequest))) (hnow : since ≤ now) :
    (countMonthly ms since now repoPages).isSome = true := by
  rw [countMonthly]
  have hgen : ∀ (rp : List (List (List PullRequest))) (cs : List Int),
      cs.length = (monthSlots ms since now).length →
      (rp.foldl
        (fun acc pgs =>
          match acc with
          | none => none
          | some cs => countMonthlyPullRequests ms since now pgs cs)
        (some cs)).isSome = true := by
    intro rp
    induction rp with
    | nil => intro cs _; rfl
    | cons pgs rest ih =>
      intro cs hlen
      obtain ⟨out, hout, holen⟩ :=
        countMonthlyPullRequests_some ms since now pgs cs hnow hlen
      simp only [List.foldl_cons, hout]
      exact ih out (by rw [holen, hlen])
  exact hgen repoPages (monthSlots ms since now) rfl

/-- Witness for C10 on a concrete three-month run with records in several
buckets. -/
theorem claim10_counts_in_bounds_witness :
    (countMonthly msUnit 0 2
      [[[mkPR 1 "open" 2 9 0 "" [], mkPR 2 "open" 1 9 0 "" []]],
       [[mkPR 3 "open" 1 9 0 "" []]]]).isSome = true :=
  claim10_counts_in_bounds msUnit 0 2
    [[[mkPR 1 "open" 2 9 0 "" [], mkPR 2 "open" 1 9 0 "" []]],
     [[mkPR 3 "open" 1 9 0 "" []]]] (by decide)


end RepoDigest
